import Mathlib

/-!
Verification of the Web Content Analyzer pipeline (src/main.py).

The program is a linear pipeline: fetch a page, extract its text, split the
text into bounded chunks, summarize each chunk with a hosted LLM, and render
the summaries.  We embed the pure parts of the code (the presenter's string
transformations, the chunker, the orchestration order and the button handler)
as executable Lean definitions over `List Char` (the model of a Python `str`),
and prove the behavioural claims about them.

External libraries (the HTTP client, the HTML parser, the LLM client) are
modelled as fields of an environment record: the outcome of the fetch-and-
extract stage and the per-chunk model response are inputs to the embedded
pipeline, exactly at the boundary where src/main.py calls into them.
-/

/-- Model of a Python `str`: a list of characters. -/
abbrev Str := List Char

/-! ## Python string primitives used by src/main.py -/

/-- Python `str.lstrip(chars)`: remove the longest leading run of characters
drawn from the set `cs`. -/
def pyLstrip (cs : List Char) (s : Str) : Str :=
  s.dropWhile (fun c => cs.contains c)

/-- The ASCII whitespace characters stripped by Python `str.strip()`
(space, tab, newline, carriage return, vertical tab, form feed). -/
def isPySpace (c : Char) : Bool :=
  c == ' ' || c == '\t' || c == '\n' || c == '\r' || c == '\x0b' || c == '\x0c'

/-- Python `str.strip()`: remove leading and trailing whitespace. -/
def pyStrip (s : Str) : Str :=
  ((s.dropWhile isPySpace).reverse.dropWhile isPySpace).reverse

/-- Python `"sep".join(parts)`. -/
def pyJoin (sep : Str) (parts : List Str) : Str :=
  List.intercalate sep parts

/-! ## The presenter: `format_bullet_points` (src/main.py lines 94-107)

Line 103 of src/main.py reads `line.lstrip('â€¢').lstrip('-').lstrip('*')
.strip()`.  The first argument is the three-character sequence
U+00E2, U+20AC, U+00A2 (the file's bytes are `c3 a2 e2 82 ac c2 a2`, the
UTF-8 encoding of those three characters): a mojibake of the bullet glyph
U+2022 whose UTF-8 bytes `e2 80 a2` were decoded as cp1252.  At runtime
Python therefore strips the characters 'â', '€', '¢' — not '•'. -/

/-- The exact character set of the first `lstrip` on line 103 of src/main.py. -/
def mojibakeBullet : List Char := ['â', '€', '¢']

/-- The per-line glyph-strip operation of src/main.py line 103:
`line.lstrip('â€¢').lstrip('-').lstrip('*').strip()`. -/
def stripGlyphs (s : Str) : Str :=
  pyStrip (pyLstrip ['*'] (pyLstrip ['-'] (pyLstrip mojibakeBullet s)))

/-- `True` when a string starts with one of the characters removed by
`stripGlyphs` (used to state when the operation is a fixed point). -/
def headBad (s : Str) : Bool :=
  match s.head? with
  | some c => mojibakeBullet.contains c || c == '-' || c == '*'
  | none => false

def contentBoxOpen : Str := ("<div class=\x27content-box\x27>").toList
def bulletPointOpen : Str := ("<div class=\x27bullet-point\x27>").toList
def divClose : Str := ("</div>").toList

/-- `format_bullet_points` (src/main.py lines 94-107): split the stripped text
on newlines; for each line, strip it, and if non-empty append a styled
`bullet-point` block holding the glyph-stripped line; wrap everything in one
`content-box` container. -/
def format_bullet_points (text : Str) : Str :=
  let lines := (pyStrip text).splitOn '\n'
  let body := lines.foldl (fun acc line =>
    let l := pyStrip line
    if l = [] then acc
    else acc ++ bulletPointOpen ++ stripGlyphs l ++ divClose) []
  contentBoxOpen ++ body ++ divClose

/-! ## The chunker (src/main.py lines 125-130)

src/main.py delegates splitting to langchain's `RecursiveCharacterTextSplitter`
with `chunk_size=2000`, `chunk_overlap=200`,
`separators=["\n\n", "\n", ". ", " ", ""]`.  That implementation is an
external library, not part of this repository's sources, so the chunker is
modelled from the specification.

Modelled from the spec: the Chunker contract of spec.md section 4.3 (the
langchain splitter itself is missing from src/).  Greedy splitting:
repeatedly take the largest prefix of the remaining text of length at most
`max_size` that ends at the latest occurrence of a separator from the
priority list `["\n\n", "\n", ". ", " ", ""]` (the first separator in the
list is tried first region-wide, falling down the list, finally allowing a
hard character cut); each subsequent chunk begins `overlap` characters
before the end of the previous chunk (bounded so that the step always makes
progress); a text no longer than `max_size` is a single chunk; the empty
text yields no chunks. -/

/-- The separator priority list of src/main.py line 128 (the final `""` is
the hard-cut fallback, handled by `cutSearch` when no separator occurs). -/
def seps : List Str := [['\n', '\n'], ['\n'], ['.', ' '], [' ']]

/-- Position of the latest occurrence of `p` in `w`, searching start
positions downward from `n - 1`. -/
def lastOccAux (p w : Str) : Nat → Option Nat
  | 0 => none
  | n + 1 => if p <+: w.drop n then some n else lastOccAux p w n

/-- Start position of the latest occurrence of the pattern `p` in `w`. -/
def lastOcc (p w : Str) : Option Nat :=
  lastOccAux p w (w.length + 1)

/-- End position (exclusive) of the current chunk: the end of the latest
occurrence, within the `ms`-character window of `r`, of the first separator
in `L` that occurs there; a hard cut at `ms` if none occurs. -/
def cutSearch (ms : Nat) (r : Str) : List Str → Nat
  | [] => ms
  | s :: rest =>
    match lastOcc s (r.take ms) with
    | some j => j + s.length
    | none => cutSearch ms r rest

/-- End position of the chunk taken from the front of `r`. -/
def cutEnd (ms : Nat) (r : Str) : Nat :=
  cutSearch ms r seps

/-- One splitting step: the cut `e`, the overlap carried into the next chunk
(`overlap` characters before the end, clamped so the split advances), and
the advance. -/
def carryOf (ov e : Nat) : Nat := min ov (e - 1)

/-- The chunk list of the remaining text `r`; `fuel` bounds the number of
steps (every step advances by at least one character, so `r.length` fuel
suffices). -/
def chunkAux (ms ov : Nat) : Nat → Str → List Str
  | 0, r => if r = [] then [] else [r]
  | fuel + 1, r =>
    if r.length ≤ ms then (if r = [] then [] else [r])
    else
      let e := cutEnd ms r
      r.take e :: chunkAux ms ov fuel (r.drop (e - carryOf ov e))

/-- The chunker: split `t` into chunks of at most `ms` characters with `ov`
characters of overlap carried between consecutive chunks. -/
def chunk (ms ov : Nat) (t : Str) : List Str :=
  chunkAux ms ov t.length t

/-- Remove the overlap windows: drop from every chunk after the first the
`min ov (previousLength - 1)` characters carried over from its predecessor,
and concatenate. -/
def remFrom (ov : Nat) : Nat → List Str → Str
  | _, [] => []
  | carry, c :: cs => c.drop carry ++ remFrom ov (carryOf ov c.length) cs

/-- Concatenate a chunk list with the overlap windows removed. -/
def removeOverlaps (ov : Nat) (cs : List Str) : Str :=
  remFrom ov 0 cs

/-! ## The pipeline (src/main.py lines 51-61, 64-91, 110-167, 171-200)

The external services are inputs: `fetchOutcome` is the result of the
fetch-and-extract stage of `scrape_content` (`none` models a raised
`requests`/parsing exception, `some t` the extracted text, possibly empty),
and `llm` is the hosted model's response for one chunk.  Observable actions
(the HTTP fetch, each model call, the user-facing messages) are recorded as
an event trace in program order. -/

/-- Observable actions of one run. -/
inductive Event where
  /-- `requests.get(url, ...)` inside `scrape_content` (line 70). -/
  | httpFetch : Event
  /-- `chain.invoke({"text": ...})` for one chunk (line 154). -/
  | modelCall : Event
  /-- `st.error("Error scraping content: ...")` (line 90). -/
  | errorScrape : Event
  /-- `st.error("Please enter your Groq API key!")` (line 54). -/
  | errorKey : Event
  /-- `st.write("Starting analysis...")` (line 173). -/
  | msgStart : Event
  /-- `st.success("Analysis complete!")` (line 200). -/
  | msgComplete : Event
deriving DecidableEq, Repr

/-- The run's environment: the sidebar credential and the behaviour of the
external services. -/
structure Env where
  /-- The Groq API key entered in the sidebar (line 44); `[]` models the
  empty/absent credential, which is falsy in Python. -/
  groq_api_key : Str
  /-- Outcome of fetching the URL and extracting its text (lines 70-87):
  `none` when the fetch or the parse raises, `some t` the cleaned text. -/
  fetchOutcome : Option Str
  /-- The hosted model's summary for one chunk's text (line 154). -/
  llm : Str → Str

/-- `scrape_content` (lines 64-91): perform the HTTP fetch; on an exception
show a scraping error and return `None`, otherwise return the extracted
text. -/
def scrape_content (env : Env) : Option Str × List Event :=
  match env.fetchOutcome with
  | none => (none, [Event.httpFetch, Event.errorScrape])
  | some t => (some t, [Event.httpFetch])

/-- `setup_groq` (lines 51-61): with no API key, show an error and stop the
script (`st.stop`); the surrounding `except` of `analyze_url` turns the stop
into a `None` result either way. -/
def setup_groq_ok (env : Env) : Bool :=
  env.groq_api_key ≠ []

/-- `analyze_url` (lines 110-167) in program order: scrape first, return
`None` on a falsy result (an exception or empty text — the empty case is
silent); then split the text (lines 125-130); only then check the
credential via `setup_groq` (line 135); finally summarize every chunk in
order. -/
def analyze_url (env : Env) : Option (List Str) × List Event :=
  let (content?, ev) := scrape_content env
  match content? with
  | none => (none, ev)
  | some content =>
    if content = [] then (none, ev)
    else
      let splits := chunk 2000 200 content
      if setup_groq_ok env then
        (some (splits.map env.llm), ev ++ splits.map (fun _ => Event.modelCall))
      else
        (none, ev ++ [Event.errorKey])

/-- The heading of the `i`-th rendered section (line 183). -/
def sectionLabel (n : Nat) : Str :=
  ("#### Section ").toList ++ (Nat.repr n).toList

/-- The formatted-summary tab (lines 182-186): one `Section i` heading and
one formatted block per summary, 1-based, in order. -/
def renderSections (summaries : List Str) : List (Str × Str) :=
  summaries.enum.map (fun p => (sectionLabel (p.1 + 1), format_bullet_points p.2))

/-- The download button (lines 189-195). -/
structure DownloadSpec where
  label : Str
  data : Str
  file_name : Str
  mime : Str
deriving DecidableEq, Repr

/-- `"\n\n".join(summaries)` (lines 189 and 198). -/
def combinedText (summaries : List Str) : Str :=
  pyJoin ['\n', '\n'] summaries

/-- The download button offered on success (lines 190-195). -/
def downloadSpec (summaries : List Str) : DownloadSpec :=
  { label := ("Download Summary").toList
    data := combinedText summaries
    file_name := ("web_content_summary.txt").toList
    mime := ("text/plain").toList }

/-- Everything the button handler surfaces in one run. -/
structure RunOutput where
  events : List Event
  sections : List (Str × Str)
  download : Option DownloadSpec
  rawText : Option Str
deriving Repr

/-- The `Analyze` button handler (lines 171-200): the button is disabled for
an empty URL; otherwise write the start message, run `analyze_url`, render
the tabs and download button only when the result is truthy (a non-empty
summary list), and show "Analysis complete!" at the end regardless. -/
def runHandler (env : Env) (url : Str) : RunOutput :=
  if url = [] then ⟨[], [], none, none⟩
  else
    let (res, ev) := analyze_url env
    match res with
    | some summaries =>
      if summaries = [] then
        ⟨Event.msgStart :: ev ++ [Event.msgComplete], [], none, none⟩
      else
        ⟨Event.msgStart :: ev ++ [Event.msgComplete],
          renderSections summaries,
          some (downloadSpec summaries),
          some (combinedText summaries)⟩
    | none => ⟨Event.msgStart :: ev ++ [Event.msgComplete], [], none, none⟩

/-! ## Predicates for the chunker proofs, and concrete witness inputs -/

/-- `s` occurs in `r` at position `p`, inside the first `ms` characters. -/
def occW (ms : Nat) (s r : Str) (p : Nat) : Prop :=
  s <+: r.drop p ∧ p + s.length ≤ ms

/-- Every window occurrence of the separator `s` in `r` ends at or after
`carry`. -/
def goodFor (ms carry : Nat) (r s : Str) : Prop :=
  ∀ p, occW ms s r p → carry ≤ p + s.length

/-- Invariant relating the overlap `carry` carried into the remaining text
`r` to the cut the splitter will choose on `r`: the carried overlap is
trivial, or it is the tail of a separator occurrence such that every
higher-priority separator occurrence in the window ends no earlier, or every
separator occurrence in the window ends no earlier. -/
def carryInv (ms ov carry : Nat) (r : Str) : Prop :=
  carry ≤ ov ∧
    (carry ≤ 1 ∨
      (∃ L1 s L2, seps = L1 ++ s :: L2 ∧ (∀ u ∈ L1, goodFor ms carry r u) ∧
        s.length ≤ carry ∧ s <+: r.drop (carry - s.length)) ∨
      (∀ u ∈ seps, goodFor ms carry r u))

/-- Concrete page text used by the witnesses. -/
def contentW : Str := ("hi there").toList

/-- Environment of a run with no API credential but a reachable page. -/
def envKeyless : Env := ⟨[], some contentW, fun c => c⟩

/-- Environment of a run whose page yields no extractable text. -/
def envEmptyPage : Env := ⟨('k' :: []), some [], fun c => c⟩

/-- Environment of a successful run: credential present, page text
extracted, and a model that prepends one character to its input. -/
def envHappy : Env := ⟨('k' :: []), some contentW, fun c => 'S' :: c⟩

/-- The summary `envHappy`'s model produces for the single chunk. -/
def sumW : Str := 'S' :: contentW

/-- Concrete URL used by the witnesses. -/
def urlW : Str := ("https://example.com").toList

/-! ## Facts about the Python string primitives -/

lemma dropWhile_eq_self_of_head {p : Char → Bool} {l : Str}
    (h : ∀ c, l.head? = some c → p c = false) : l.dropWhile p = l := by
  cases l with
  | nil => rfl
  | cons a t => simp [List.dropWhile_cons, h a rfl]

lemma head_dropWhile_false {p : Char → Bool} :
    ∀ {l : Str} {c : Char}, (l.dropWhile p).head? = some c → p c = false := by
  intro l
  induction l with
  | nil => intro c h; simp at h
  | cons a t ih =>
    intro c h
    rw [List.dropWhile_cons] at h
    by_cases hpa : p a
    · rw [if_pos hpa] at h; exact ih h
    · rw [if_neg hpa] at h
      simp only [List.head?_cons, Option.some.injEq] at h
      rw [h] at hpa
      exact Bool.eq_false_iff.mpr hpa

lemma pre_head {l₁ l₂ : Str} (h : l₁ <+: l₂) (hne : l₁ ≠ []) :
    l₁.head? = l₂.head? := by
  obtain ⟨t, rfl⟩ := h
  cases l₁ with
  | nil => exact absurd rfl hne
  | cons a l => rfl

lemma pyStrip_pre (s : Str) : pyStrip s <+: s.dropWhile isPySpace := by
  unfold pyStrip
  have h1 : (s.dropWhile isPySpace).reverse.dropWhile isPySpace <:+
      (s.dropWhile isPySpace).reverse := List.dropWhile_suffix isPySpace
  exact List.reverse_suffix.mp (by simpa only [List.reverse_reverse] using h1)

lemma pyStrip_head {s : Str} {c : Char}
    (h : (pyStrip s).head? = some c) : isPySpace c = false := by
  by_cases hn : pyStrip s = []
  · rw [hn] at h; simp at h
  · have h2 := pre_head (pyStrip_pre s) hn
    rw [h2] at h
    exact head_dropWhile_false h

lemma pyStrip_getLast {s : Str} {c : Char}
    (h : (pyStrip s).getLast? = some c) : isPySpace c = false := by
  unfold pyStrip at h
  rw [List.getLast?_reverse] at h
  exact head_dropWhile_false h

lemma pyStrip_eq_self {s : Str}
    (hh : ∀ c, s.head? = some c → isPySpace c = false)
    (hl : ∀ c, s.getLast? = some c → isPySpace c = false) : pyStrip s = s := by
  unfold pyStrip
  rw [dropWhile_eq_self_of_head hh]
  rw [dropWhile_eq_self_of_head (fun c hc => hl c (by rwa [List.head?_reverse] at hc))]
  exact List.reverse_reverse s

lemma pyStrip_idem (s : Str) : pyStrip (pyStrip s) = pyStrip s :=
  pyStrip_eq_self (fun _ h => pyStrip_head h) (fun _ h => pyStrip_getLast h)

/-! ## Claims C3 and C4: the glyph-strip operation -/

/-- C3: the Presenter is claimed to strip any leading bullet glyph (`•`,
`-`, `*`) and surrounding whitespace from each line, wrap each non-empty
line as an individually styled block, and group the blocks in a labelled
container.  The code does not strip a leading `•`: the first `lstrip`
argument on line 103 of src/main.py is the mojibake sequence "â€¢" (the
bytes of `•` mis-decoded), so at the failing input "• hello" the glyph-strip
leaves the line unchanged and the rendered block retains the bullet (the
`-` and `*` glyphs, the trimming, the per-line blocks and the container do
behave as claimed). -/
theorem c3_bullet_glyph_retained :
    stripGlyphs (("• hello").toList) = ("• hello").toList ∧
    format_bullet_points (("• hello").toList) =
      ("<div class=\x27content-box\x27><div class=\x27bullet-point\x27>• hello</div></div>").toList ∧
    stripGlyphs (("- point").toList) = ("point").toList ∧
    stripGlyphs (("* point").toList) = ("point").toList := by
  refine ⟨by decide, by decide, by decide, by decide⟩

/-- C4, counterexample: the glyph-strip operation is not idempotent.  On
the line "*-a" one application yields "-a" (the leading `*` run is removed
only after the `-` strip has already run), and a second application yields
"a". -/
theorem c4_counterexample :
    ¬ stripGlyphs (stripGlyphs (("*-a").toList)) = stripGlyphs (("*-a").toList) := by
  decide

/-- C4, amended: the glyph-strip operation is idempotent on every line whose
once-stripped form does not begin with one of the stripped characters
('â', '€', '¢', '-', '*'); in general a second application can strip
further (see the counterexample). -/
theorem c4_strip_fixed (s : Str) (h : headBad (stripGlyphs s) = false) :
    stripGlyphs (stripGlyphs s) = stripGlyphs s := by
  have hhead : ∀ c, (stripGlyphs s).head? = some c →
      mojibakeBullet.contains c = false ∧ (c == '-') = false ∧ (c == '*') = false := by
    intro c hc
    unfold headBad at h
    rw [hc] at h
    simp only [Bool.or_eq_false_iff] at h
    exact ⟨h.1.1, h.1.2, h.2⟩
  have h1 : pyLstrip mojibakeBullet (stripGlyphs s) = stripGlyphs s :=
    dropWhile_eq_self_of_head (fun c hc => (hhead c hc).1)
  have h2 : pyLstrip ['-'] (stripGlyphs s) = stripGlyphs s :=
    dropWhile_eq_self_of_head (fun c hc => by
      simp only [List.contains_cons, List.contains_nil, Bool.or_false]
      exact (hhead c hc).2.1)
  have h3 : pyLstrip ['*'] (stripGlyphs s) = stripGlyphs s :=
    dropWhile_eq_self_of_head (fun c hc => by
      simp only [List.contains_cons, List.contains_nil, Bool.or_false]
      exact (hhead c hc).2.2)
  show pyStrip (pyLstrip ['*'] (pyLstrip ['-'] (pyLstrip mojibakeBullet (stripGlyphs s)))) =
    stripGlyphs s
  rw [h1, h2, h3]
  simp only [stripGlyphs]
  exact pyStrip_idem _

/-- C4, witness: a concrete line satisfying the side condition of
`c4_strip_fixed`. -/
theorem c4_witness :
    headBad (stripGlyphs (("ok").toList)) = false ∧
    stripGlyphs (stripGlyphs (("ok").toList)) = stripGlyphs (("ok").toList) :=
  ⟨by decide, c4_strip_fixed (("ok").toList) (by decide)⟩

/-! ## Claims C1, C2, C10: failure behaviour of the orchestration -/

/-- C1, counterexample: the claim says a missing API credential is detected
before any network work, with no HTTP fetch and the run never starting.  In
src/main.py `analyze_url` calls `scrape_content` (which performs the
`requests.get`) before `setup_groq` ever checks the key, so in a run with an
absent credential the HTTP fetch does occur. -/
theorem c1_counterexample :
    envKeyless.groq_api_key = [] ∧ Event.httpFetch ∈ (analyze_url envKeyless).2 :=
  ⟨rfl, by decide⟩

/-- C1, amended: with an absent credential the run produces no summaries and
no model call ever occurs — but only after the HTTP fetch (and the chunking)
have already happened, since the credential check sits at line 135, after
scraping (line 118) and splitting (line 130). -/
theorem c1_keyless_no_model_call (env : Env) (h : env.groq_api_key = []) :
    (analyze_url env).1 = none ∧ Event.modelCall ∉ (analyze_url env).2 := by
  unfold analyze_url scrape_content setup_groq_ok
  cases hf : env.fetchOutcome with
  | none => simp
  | some t =>
    by_cases ht : t = []
    · subst ht; simp
    · simp [ht, h]

/-- C1, witness: the amended statement at the concrete keyless run. -/
theorem c1_witness :
    envKeyless.groq_api_key = [] ∧
    (analyze_url envKeyless).1 = none ∧ Event.modelCall ∉ (analyze_url envKeyless).2 :=
  ⟨rfl, c1_keyless_no_model_call envKeyless rfl⟩

/-- C2, counterexample: the claim says an extraction that yields no text is
reported distinctly with a "no content found" message.  In src/main.py the
empty-content case hits `if not content: return None` (line 119) and
returns silently: the whole event trace of such a run is just the HTTP
fetch — no error or report of any kind is emitted. -/
theorem c2_counterexample :
    envEmptyPage.fetchOutcome = some [] ∧
    (analyze_url envEmptyPage).1 = none ∧
    (analyze_url envEmptyPage).2 = [Event.httpFetch] :=
  ⟨rfl, by decide, by decide⟩

/-- C2, amended: when extraction yields no text the run does fail before any
summarization call is attempted (no model call occurs), but the failure is
silent — no error message of any kind is shown. -/
theorem c2_empty_content_silent (env : Env) (h : env.fetchOutcome = some []) :
    (analyze_url env).1 = none ∧ Event.modelCall ∉ (analyze_url env).2 ∧
    Event.errorScrape ∉ (analyze_url env).2 ∧ Event.errorKey ∉ (analyze_url env).2 := by
  unfold analyze_url scrape_content
  rw [h]
  simp

/-- C2, witness: the amended statement at the concrete empty-page run. -/
theorem c2_witness :
    envEmptyPage.fetchOutcome = some [] ∧
    ((analyze_url envEmptyPage).1 = none ∧
      Event.modelCall ∉ (analyze_url envEmptyPage).2 ∧
      Event.errorScrape ∉ (analyze_url envEmptyPage).2 ∧
      Event.errorKey ∉ (analyze_url envEmptyPage).2) :=
  ⟨rfl, c2_empty_content_silent envEmptyPage rfl⟩

lemma getLast?_cons_concat {α : Type} (a b : α) (l : List α) :
    (a :: (l ++ [b])).getLast? = some b := by
  rw [← List.cons_append]
  exact List.getLast?_concat _

/-- C10: for every run triggered with a non-empty URL, the handler's last
user-visible event is the success banner "Analysis complete!"
(`st.success` on line 200 sits outside the `if summaries:` block), in
failing runs just as in successful ones. -/
theorem c10_banner_always (env : Env) (url : Str) (h : url ≠ []) :
    ((runHandler env url).events).getLast? = some Event.msgComplete := by
  unfold runHandler
  rw [if_neg h]
  rcases hA : analyze_url env with ⟨res, ev⟩
  cases res with
  | none => exact getLast?_cons_concat _ _ _
  | some summaries =>
    dsimp only
    by_cases hs : summaries = []
    · rw [if_pos hs]
      exact getLast?_cons_concat _ _ _
    · rw [if_neg hs]
      exact getLast?_cons_concat _ _ _

/-- C10, witness: the banner shows even for a failing (keyless) run. -/
theorem c10_witness :
    urlW ≠ [] ∧ ((runHandler envKeyless urlW).events).getLast? = some Event.msgComplete :=
  ⟨by decide, c10_banner_always envKeyless urlW (by decide)⟩

/-! ## Claims C8 and C9: alignment of chunks, summaries and output -/

/-- C8: in every successful run the summary list is the chunk list mapped
through the model, so the counts agree and `summary[i]` is the model's
answer for `chunk[i]`; and the Presenter labels the `i`-th summary
"Section i" with `i` the 1-based index. -/
theorem c8_alignment (env : Env) (content : Str) (summaries : List Str)
    (hc : env.fetchOutcome = some content)
    (hres : (analyze_url env).1 = some summaries) :
    summaries.length = (chunk 2000 200 content).length ∧
    (∀ i (h1 : i < summaries.length) (h2 : i < (chunk 2000 200 content).length),
      summaries.get ⟨i, h1⟩ = env.llm ((chunk 2000 200 content).get ⟨i, h2⟩)) ∧
    (renderSections summaries).length = summaries.length ∧
    (∀ i (h : i < (renderSections summaries).length),
      ((renderSections summaries).get ⟨i, h⟩).1 = sectionLabel (i + 1)) := by
  have hsum : summaries = (chunk 2000 200 content).map env.llm := by
    unfold analyze_url scrape_content at hres
    rw [hc] at hres
    dsimp only at hres
    by_cases hct : content = []
    · rw [if_pos hct] at hres
      exact absurd hres (by simp)
    · rw [if_neg hct] at hres
      by_cases hk : setup_groq_ok env
      · rw [if_pos hk] at hres
        dsimp only at hres
        exact (Option.some.injEq _ _ ▸ hres).symm
      · rw [if_neg hk] at hres
        exact absurd hres (by simp)
  subst hsum
  refine ⟨by simp, ?_, by simp [renderSections], ?_⟩
  · intro i h1 h2
    simp
  · intro i h
    simp only [renderSections, List.get_eq_getElem, List.getElem_map,
      List.getElem_enum]

/-- C8, witness: the alignment at the concrete successful run (one chunk,
one summary, one section labelled "Section 1"). -/
theorem c8_witness :
    envHappy.fetchOutcome = some contentW ∧
    (analyze_url envHappy).1 = some [sumW] ∧
    ([sumW] : List Str).length = (chunk 2000 200 contentW).length ∧
    (renderSections [sumW]).length = ([sumW] : List Str).length :=
  ⟨rfl, by decide,
    (c8_alignment envHappy contentW [sumW] rfl (by decide)).1,
    (c8_alignment envHappy contentW [sumW] rfl (by decide)).2.2.1⟩

/-- C9: in every successful run the handler's download button offers a file
named web_content_summary.txt with MIME type text/plain whose payload is
exactly the summaries joined in order with a blank-line separator, and the
raw-text view shows the same combined text. -/
theorem c9_download_payload (env : Env) (url : Str) (summaries : List Str)
    (hu : url ≠ []) (hres : (analyze_url env).1 = some summaries)
    (hne : summaries ≠ []) :
    (runHandler env url).download = some
      { label := ("Download Summary").toList
        data := pyJoin ['\n', '\n'] summaries
        file_name := ("web_content_summary.txt").toList
        mime := ("text/plain").toList } ∧
    (runHandler env url).rawText = some (pyJoin ['\n', '\n'] summaries) := by
  have hsplit : analyze_url env = (some summaries, (analyze_url env).2) := by
    rw [← hres]
  unfold runHandler
  rw [if_neg hu, hsplit]
  dsimp only
  rw [if_neg hne]
  exact ⟨rfl, rfl⟩

/-- C9, witness: the download payload at the concrete successful run. -/
theorem c9_witness :
    urlW ≠ [] ∧ (analyze_url envHappy).1 = some [sumW] ∧ ([sumW] : List Str) ≠ [] ∧
    (runHandler envHappy urlW).download = some
      { label := ("Download Summary").toList
        data := pyJoin ['\n', '\n'] [sumW]
        file_name := ("web_content_summary.txt").toList
        mime := ("text/plain").toList } :=
  ⟨by decide, by decide, by decide,
    (c9_download_payload envHappy urlW [sumW] (by decide) (by decide) (by decide)).1⟩

/-! ## Claim C7: chunk counts at the boundary cases -/

/-- C7: a non-empty text no longer than `max_size` is returned as exactly
one chunk equal to the input, and the empty text yields zero chunks. -/
theorem c7_chunk_count :
    (∀ (ms ov : Nat) (t : Str), t ≠ [] → t.length ≤ ms → chunk ms ov t = [t]) ∧
    ∀ (ms ov : Nat), chunk ms ov [] = [] := by
  constructor
  · intro ms ov t ht hle
    unfold chunk
    cases t with
    | nil => exact absurd rfl ht
    | cons a t' =>
      show chunkAux ms ov (t'.length + 1) (a :: t') = [a :: t']
      unfold chunkAux
      rw [if_pos hle, if_neg (by simp)]
  · intro ms ov
    rfl

/-- C7, witness: the two counts at concrete inputs. -/
theorem c7_witness :
    ('a' :: []) ≠ [] ∧ ('a' :: ([] : Str)).length ≤ 2000 ∧
    chunk 2000 200 ('a' :: []) = [('a' :: [])] ∧
    chunk 2000 200 ([] : Str) = [] :=
  ⟨by decide, by decide, c7_chunk_count.1 2000 200 ('a' :: []) (by decide) (by decide),
    c7_chunk_count.2 2000 200⟩

/-! ## Facts about `lastOcc` and `cutSearch` -/

lemma lastOccAux_some {p w : Str} :
    ∀ {n j : Nat}, lastOccAux p w n = some j → j < n ∧ p <+: w.drop j := by
  intro n
  induction n with
  | zero => intro j h; simp [lastOccAux] at h
  | succ n ih =>
    intro j h
    unfold lastOccAux at h
    by_cases hp : p <+: w.drop n
    · rw [if_pos hp] at h
      injection h with h
      subst h
      exact ⟨Nat.lt_succ_self n, hp⟩
    · rw [if_neg hp] at h
      obtain ⟨h1, h2⟩ := ih h
      exact ⟨Nat.lt_succ_of_lt h1, h2⟩

lemma lastOccAux_max {p w : Str} :
    ∀ {n j : Nat}, lastOccAux p w n = some j →
      ∀ k, k < n → p <+: w.drop k → k ≤ j := by
  intro n
  induction n with
  | zero => intro j h; simp [lastOccAux] at h
  | succ n ih =>
    intro j h k hk hp
    unfold lastOccAux at h
    by_cases hpn : p <+: w.drop n
    · rw [if_pos hpn] at h
      injection h with h
      subst h
      exact Nat.lt_succ_iff.mp hk
    · rw [if_neg hpn] at h
      rcases Nat.lt_succ_iff_lt_or_eq.mp hk with hk' | hk'
      · exact ih h k hk' hp
      · subst hk'; exact absurd hp hpn

lemma lastOccAux_none {p w : Str} :
    ∀ {n : Nat}, lastOccAux p w n = none → ∀ k, k < n → ¬ p <+: w.drop k := by
  intro n
  induction n with
  | zero => intro h k hk; omega
  | succ n ih =>
    intro h k hk hp
    unfold lastOccAux at h
    by_cases hpn : p <+: w.drop n
    · rw [if_pos hpn] at h; exact Option.noConfusion h
    · rw [if_neg hpn] at h
      rcases Nat.lt_succ_iff_lt_or_eq.mp hk with hk' | hk'
      · exact ih h k hk' hp
      · subst hk'; exact hpn hp

lemma pre_drop_le {p w : Str} {k : Nat} (hp1 : p ≠ []) (h : p <+: w.drop k) :
    k ≤ w.length := by
  by_contra hgt
  push_neg at hgt
  rw [List.drop_eq_nil_of_le (Nat.le_of_lt hgt)] at h
  exact hp1 (List.prefix_nil.mp h)

lemma lastOcc_some {p w : Str} {j : Nat} (h : lastOcc p w = some j) :
    p <+: w.drop j ∧ j ≤ w.length := by
  obtain ⟨h1, h2⟩ := lastOccAux_some h
  exact ⟨h2, Nat.lt_succ_iff.mp h1⟩

lemma lastOcc_none {p w : Str} (hp : p ≠ []) (h : lastOcc p w = none) :
    ∀ k, ¬ p <+: w.drop k := by
  intro k hk
  by_cases hkw : k ≤ w.length
  · exact lastOccAux_none h k (Nat.lt_succ_of_le hkw) hk
  · exact hkw (pre_drop_le hp hk)

lemma lastOcc_ge {p w : Str} {k : Nat} (hp : p ≠ []) (hk : p <+: w.drop k) :
    ∃ j, lastOcc p w = some j ∧ k ≤ j := by
  cases hL : lastOcc p w with
  | none => exact absurd hk (lastOcc_none hp hL k)
  | some j =>
    exact ⟨j, rfl, lastOccAux_max hL k (Nat.lt_succ_of_le (pre_drop_le hp hk)) hk⟩

lemma occW_iff {ms : Nat} {s r : Str} {p : Nat} (hs : s ≠ []) :
    s <+: (r.take ms).drop p ↔ occW ms s r p := by
  rw [List.drop_take, List.prefix_take_iff]
  unfold occW
  have hlen : 0 < s.length := List.length_pos.mpr hs
  constructor
  · rintro ⟨h1, h2⟩
    exact ⟨h1, by omega⟩
  · rintro ⟨h1, h2⟩
    exact ⟨h1, by omega⟩

lemma cutSearch_le {ms : Nat} {r : Str} :
    ∀ L : List Str, cutSearch ms r L ≤ ms := by
  intro L
  induction L with
  | nil => exact Nat.le_refl ms
  | cons s rest ih =>
    unfold cutSearch
    cases hL : lastOcc s (r.take ms) with
    | none => exact ih
    | some j =>
      show j + s.length ≤ ms
      obtain ⟨h1, h2⟩ := lastOcc_some hL
      have hw : (r.take ms).length ≤ ms := by
        rw [List.length_take]; exact Nat.min_le_left _ _
      have h3 := h1.length_le
      rw [List.length_drop] at h3
      omega

lemma cutSearch_pos {ms : Nat} {r : Str} (hms : 0 < ms) :
    ∀ L : List Str, (∀ s ∈ L, s ≠ []) → 1 ≤ cutSearch ms r L := by
  intro L
  induction L with
  | nil => intro _; exact hms
  | cons s rest ih =>
    intro hne
    unfold cutSearch
    cases hL : lastOcc s (r.take ms) with
    | none => exact ih (fun u hu => hne u (List.mem_cons_of_mem s hu))
    | some j =>
      show 1 ≤ j + s.length
      have := List.length_pos.mpr (hne s (List.mem_cons_self s rest))
      omega

lemma seps_ne_nil : ∀ s ∈ seps, s ≠ [] := by decide

lemma seps_len_le : ∀ s ∈ seps, s.length ≤ 2 := by decide

lemma cutEnd_le (ms : Nat) (r : Str) : cutEnd ms r ≤ ms :=
  cutSearch_le seps

lemma cutEnd_pos {ms : Nat} (r : Str) (hms : 0 < ms) : 1 ≤ cutEnd ms r :=
  cutSearch_pos hms seps seps_ne_nil

/-! ## Claim C6: the chunk size bound -/

lemma step_advance_pos {ms : Nat} (ov : Nat) (r : Str) (hms : 0 < ms) :
    1 ≤ cutEnd ms r - carryOf ov (cutEnd ms r) := by
  have he1 : 1 ≤ cutEnd ms r := cutEnd_pos r hms
  have h2 := Nat.min_le_right ov (cutEnd ms r - 1)
  unfold carryOf
  omega

lemma chunkAux_le (ms ov : Nat) (hms : 0 < ms) :
    ∀ fuel (r : Str), r.length ≤ fuel → ∀ c ∈ chunkAux ms ov fuel r, c.length ≤ ms := by
  intro fuel
  induction fuel with
  | zero =>
    intro r hr c hc
    have h0 : r = [] := List.length_eq_zero.mp (Nat.le_zero.mp hr)
    subst h0
    simp [chunkAux] at hc
  | succ fuel ih =>
    intro r hr c hc
    unfold chunkAux at hc
    by_cases hle : r.length ≤ ms
    · rw [if_pos hle] at hc
      by_cases hnil : r = []
      · rw [if_pos hnil] at hc; simp at hc
      · rw [if_neg hnil] at hc
        simp only [List.mem_singleton] at hc
        subst hc
        exact hle
    · rw [if_neg hle] at hc
      dsimp only at hc
      rcases List.mem_cons.mp hc with hc1 | hc2
      · subst hc1
        rw [List.length_take]
        exact le_trans (Nat.min_le_left _ _) (cutEnd_le ms r)
      · have hadv := step_advance_pos ov r hms
        have hlen : (r.drop (cutEnd ms r - carryOf ov (cutEnd ms r))).length ≤ fuel := by
          rw [List.length_drop]; omega
        exact ih _ hlen c hc2

/-- C6: every chunk the chunker produces has length at most the configured
maximum (the model hard-cuts at `max_size` when no separator is available,
so the bound holds without exception; a fortiori the claim, which allows an
atomic-run exception, holds). -/
theorem c6_chunk_size_bound (ms ov : Nat) (t : Str) (hms : 0 < ms) :
    ∀ c ∈ chunk ms ov t, c.length ≤ ms :=
  chunkAux_le ms ov hms t.length t (Nat.le_refl _)

/-- C6, witness: the bound applied to a concrete chunk of a concrete run
with the configured parameters. -/
theorem c6_witness :
    0 < 2000 ∧ contentW ∈ chunk 2000 200 contentW ∧ contentW.length ≤ 2000 :=
  ⟨by decide, by decide,
    c6_chunk_size_bound 2000 200 contentW (by decide) contentW (by decide)⟩

/-! ## Claim C5: chunk coverage -/

lemma cs_ge_of_all {ms carry : Nat} {r : Str} (hcm : carry < ms) :
    ∀ L : List Str, (∀ u ∈ L, u ≠ []) → (∀ u ∈ L, goodFor ms carry r u) →
      carry ≤ cutSearch ms r L := by
  intro L
  induction L with
  | nil => intro _ _; exact Nat.le_of_lt hcm
  | cons s rest ih =>
    intro hne hgood
    unfold cutSearch
    cases hL : lastOcc s (r.take ms) with
    | none =>
      exact ih (fun u hu => hne u (List.mem_cons_of_mem s hu))
        (fun u hu => hgood u (List.mem_cons_of_mem s hu))
    | some j =>
      show carry ≤ j + s.length
      obtain ⟨h1, _⟩ := lastOcc_some hL
      exact hgood s (List.mem_cons_self s rest) j
        ((occW_iff (hne s (List.mem_cons_self s rest))).mp h1)

lemma cs_ge_of_split {ms carry : Nat} {r : Str} :
    ∀ (L1 : List Str) (s : Str) (L2 : List Str),
      (∀ u ∈ L1, u ≠ []) → (∀ u ∈ L1, goodFor ms carry r u) →
      s ≠ [] → s.length ≤ carry → carry ≤ ms →
      s <+: r.drop (carry - s.length) →
      carry ≤ cutSearch ms r (L1 ++ s :: L2) := by
  intro L1
  induction L1 with
  | nil =>
    intro s L2 _ _ hs hsl hcm hocc
    rw [List.nil_append]
    unfold cutSearch
    have hwin : s <+: (r.take ms).drop (carry - s.length) :=
      (occW_iff hs).mpr ⟨hocc, by omega⟩
    obtain ⟨j, hj, hge⟩ := lastOcc_ge hs hwin
    rw [hj]
    show carry ≤ j + s.length
    omega
  | cons u L1x ih =>
    intro s L2 hne hgood hs hsl hcm hocc
    rw [List.cons_append]
    unfold cutSearch
    cases hL : lastOcc u (r.take ms) with
    | none =>
      exact ih s L2 (fun v hv => hne v (List.mem_cons_of_mem u hv))
        (fun v hv => hgood v (List.mem_cons_of_mem u hv)) hs hsl hcm hocc
    | some j =>
      show carry ≤ j + u.length
      obtain ⟨h1, _⟩ := lastOcc_some hL
      exact hgood u (List.mem_cons_self u L1x) j
        ((occW_iff (hne u (List.mem_cons_self u L1x))).mp h1)

lemma cutSearch_cases (ms : Nat) (r : Str) :
    ∀ L : List Str,
      ((∀ u ∈ L, lastOcc u (r.take ms) = none) ∧ cutSearch ms r L = ms) ∨
      ∃ L1 s L2 j, L = L1 ++ s :: L2 ∧
        (∀ u ∈ L1, lastOcc u (r.take ms) = none) ∧
        lastOcc s (r.take ms) = some j ∧ cutSearch ms r L = j + s.length := by
  intro L
  induction L with
  | nil => exact Or.inl ⟨by simp, rfl⟩
  | cons s rest ih =>
    cases hL : lastOcc s (r.take ms) with
    | some j =>
      refine Or.inr ⟨[], s, rest, j, rfl, by simp, hL, ?_⟩
      unfold cutSearch
      rw [hL]
    | none =>
      rcases ih with ⟨hnone, hcs⟩ | ⟨L1, u, L2, j, hdec, hnone, hj, hcs⟩
      · refine Or.inl ⟨?_, ?_⟩
        · intro v hv
          rcases List.mem_cons.mp hv with h | h
          · subst h; exact hL
          · exact hnone v h
        · unfold cutSearch; rw [hL]; exact hcs
      · refine Or.inr ⟨s :: L1, u, L2, j, by simp [hdec], ?_, hj, ?_⟩
        · intro v hv
          rcases List.mem_cons.mp hv with h | h
          · subst h; exact hL
          · exact hnone v h
        · unfold cutSearch; rw [hL]; exact hcs

lemma carry_le_cutEnd {ms ov carry : Nat} {r : Str} (hov : ov < ms)
    (hinv : carryInv ms ov carry r) : carry ≤ cutEnd ms r := by
  obtain ⟨hcov, hrest⟩ := hinv
  have hcm : carry < ms := Nat.lt_of_le_of_lt hcov hov
  rcases hrest with h1 | hsplit | hall
  · have h2 : 1 ≤ cutEnd ms r := cutEnd_pos r (by omega)
    omega
  · obtain ⟨L1, s, L2, hdec, hgood, hsl, hocc⟩ := hsplit
    have hsub : ∀ u ∈ L1, u ≠ [] := fun u hu =>
      seps_ne_nil u (by rw [hdec]; exact List.mem_append_left _ hu)
    have hs : s ≠ [] := seps_ne_nil s
      (by rw [hdec]; exact List.mem_append_right _ (List.mem_cons_self _ _))
    unfold cutEnd
    rw [hdec]
    exact cs_ge_of_split L1 s L2 hsub hgood hs hsl (Nat.le_of_lt hcm) hocc
  · exact cs_ge_of_all hcm seps seps_ne_nil hall

lemma inv_step {ms ov : Nat} {r : Str} (hms : 0 < ms) :
    carryInv ms ov (carryOf ov (cutEnd ms r))
      (r.drop (cutEnd ms r - carryOf ov (cutEnd ms r))) := by
  set e := cutEnd ms r with he
  set c2 := carryOf ov e with hc2
  set adv := e - c2 with hadv
  have he1 : 1 ≤ e := cutEnd_pos r hms
  have hele : e ≤ ms := cutEnd_le ms r
  have hc2ov : c2 ≤ ov := Nat.min_le_left _ _
  have hc2e : c2 ≤ e - 1 := Nat.min_le_right _ _
  refine ⟨hc2ov, ?_⟩
  by_cases hsmall : c2 ≤ 1
  · exact Or.inl hsmall
  push_neg at hsmall
  have hshift : ∀ u : Str, u ≠ [] → lastOcc u (r.take ms) = none →
      goodFor ms c2 (r.drop adv) u := by
    intro u hu hnone p hocc
    obtain ⟨hpre, hple⟩ := hocc
    rw [List.drop_drop] at hpre
    by_cases hin : adv + p + u.length ≤ ms
    · have hoc : occW ms u r (adv + p) := ⟨hpre, hin⟩
      exact absurd ((occW_iff hu).mpr hoc) (lastOcc_none hu hnone _)
    · push_neg at hin
      omega
  have hcut : cutSearch ms r seps = e := by rw [he]; rfl
  rcases cutSearch_cases ms r seps with
    ⟨hnone, hcs⟩ | ⟨L1, s, L2, j, hdec, hnone, hj, hcs⟩
  · refine Or.inr (Or.inr ?_)
    intro u hu
    exact hshift u (seps_ne_nil u hu) (hnone u hu)
  · have hsmem : s ∈ seps := by
      rw [hdec]; exact List.mem_append_right _ (List.mem_cons_self _ _)
    have hs : s ≠ [] := seps_ne_nil s hsmem
    have hslen : s.length ≤ 2 := seps_len_le s hsmem
    have hej : e = j + s.length := by rw [← hcut]; exact hcs
    refine Or.inr (Or.inl ⟨L1, s, L2, hdec, ?_, by omega, ?_⟩)
    · intro u hu
      exact hshift u
        (seps_ne_nil u (by rw [hdec]; exact List.mem_append_left _ hu))
        (hnone u hu)
    · obtain ⟨hpre, hjle⟩ := lastOcc_some hj
      have hro : s <+: r.drop j := ((occW_iff hs).mp hpre).1
      rw [List.drop_drop]
      have harith : adv + (c2 - s.length) = j := by omega
      rw [harith]
      exact hro

lemma remFrom_chunkAux {ms ov : Nat} (hms : 0 < ms) (hov : ov < ms) :
    ∀ (fuel : Nat) (r : Str) (carry : Nat), r.length ≤ fuel →
      carryInv ms ov carry r →
      remFrom ov carry (chunkAux ms ov fuel r) = r.drop carry := by
  intro fuel
  induction fuel with
  | zero =>
    intro r carry hr _
    have h0 : r = [] := List.length_eq_zero.mp (Nat.le_zero.mp hr)
    subst h0
    simp [chunkAux, remFrom]
  | succ fuel ih =>
    intro r carry hr hinv
    unfold chunkAux
    by_cases hle : r.length ≤ ms
    · rw [if_pos hle]
      by_cases hnil : r = []
      · subst hnil
        simp [remFrom]
      · rw [if_neg hnil]
        simp [remFrom]
    · rw [if_neg hle]
      dsimp only
      push_neg at hle
      set e := cutEnd ms r with he
      set c2 := carryOf ov e with hc2
      set adv := e - c2 with hadv
      have he1 : 1 ≤ e := cutEnd_pos r hms
      have hele : e ≤ ms := cutEnd_le ms r
      have hc2e : c2 ≤ e - 1 := Nat.min_le_right _ _
      have hcut : carry ≤ e := carry_le_cutEnd hov hinv
      have hlenr : (r.drop adv).length ≤ fuel := by
        rw [List.length_drop]; omega
      have hinv2 : carryInv ms ov c2 (r.drop adv) := inv_step hms
      unfold remFrom
      have htl : (r.take e).length = e := by
        rw [List.length_take]; omega
      rw [htl, ← hc2]
      rw [ih (r.drop adv) c2 hlenr hinv2]
      rw [List.drop_drop]
      have hadv2 : adv + c2 = e := by omega
      rw [hadv2]
      rw [List.drop_take]
      have hde : r.drop e = (r.drop carry).drop (e - carry) := by
        rw [List.drop_drop]
        congr 1
        omega
      rw [hde]
      exact List.take_append_drop _ _

/-- C5: chunk coverage — for any input text, concatenating the chunks the
chunker produces with the overlap windows removed reconstructs the original
text exactly; no characters are dropped or duplicated beyond the overlap
windows. -/
theorem c5_chunk_coverage (ms ov : Nat) (t : Str) (hms : 0 < ms)
    (hov : ov < ms) : removeOverlaps ov (chunk ms ov t) = t := by
  unfold removeOverlaps chunk
  have h := remFrom_chunkAux hms hov t.length t 0 (Nat.le_refl _)
    ⟨Nat.zero_le _, Or.inl (by omega)⟩
  simpa using h

/-- C5, witness: coverage at a concrete text with the configured
`max_size = 2000` and `overlap = 200`. -/
theorem c5_witness :
    0 < 2000 ∧ 200 < 2000 ∧
    removeOverlaps 200 (chunk 2000 200 contentW) = contentW :=
  ⟨by decide, by decide, c5_chunk_coverage 2000 200 contentW (by decide) (by decide)⟩
